import Mathlib

/-!
Verification of the terminal gradient-text and box-drawing rendering engine
of `moon.py` (class `MoonUI` plus its terminal-metrics helpers).

The engine is embedded shallowly:

* strings are `List Char` (Python `str` length and indexing count code
  points, as does `List Char`);
* the ANSI-strip `re.sub(r'\033\[[0-9;]*m', '', text)` is embedded as an
  explicit left-to-right scanner `ansiScan` (the regex class `[0-9;]`
  never matches `m`, so greedy matching at a position succeeds exactly
  when the maximal digit/semicolon run is followed by `m`; `re.sub`
  removes the match and continues scanning after it, without rescanning);
* the per-character linear interpolation
  `int(start + (end - start) * (i / (n - 1)))` is embedded twice: as the
  exact-arithmetic value `interp` (truncation toward zero of the
  rational `(s*(n-1) + (e-s)*i) / (n-1)`; the gradient builder uses it,
  and the structural theorems depend only on its non-negativity), and as
  the faithful IEEE-754 binary64 evaluation `interpF` (one correct
  rounding per float operation), which settles the numerical claim; the
  two differ on some in-range channels, as the C4 counterexample shows;
* the terminal-size query of `get_term_width` is an environment
  capability; it is embedded as an `Option Int` argument, `none` standing
  for a query that raises (the `except` path of the source).
-/

namespace Moon

/-- Decimal digit character for `n % 10`, as produced by Python's
decimal formatting of non-negative integers. -/
def digitChar (n : Nat) : Char :=
  match n % 10 with
  | 0 => '0' | 1 => '1' | 2 => '2' | 3 => '3' | 4 => '4'
  | 5 => '5' | 6 => '6' | 7 => '7' | 8 => '8' | _ => '9'

/-- Most-significant-first decimal digits of `n`; the first argument is
fuel making the recursion structural (any fuel above the digit count of
`n` yields the decimal representation). -/
def natReprAux : Nat → Nat → List Char
  | 0, _ => []
  | fuel + 1, n => if n < 10 then [digitChar n] else natReprAux fuel (n / 10) ++ [digitChar n]

/-- Decimal representation of a natural number, as Python's `str`. -/
def natRepr (n : Nat) : List Char := natReprAux (n + 1) n

/-- Decimal representation of an integer, as Python's `str` (a leading
minus sign for negative values). -/
def intRepr (i : Int) : List Char :=
  if i < 0 then '-' :: natRepr i.natAbs else natRepr i.toNat

/-- Characters matched by the regex class `[0-9;]`. -/
def isParamChar (c : Char) : Bool := c.isDigit || c = ';'

/-- Scan the run of `[0-9;]` characters at the head of the list; return
the remainder after the terminating `m`, or `none` when the first
character after the run is not `m`.  This is exactly when the greedy
pattern `[0-9;]*m` matches at this position, since `m` itself is not in
the class and backtracking can only re-test class characters. -/
def consumeParams : List Char → Option (List Char)
  | [] => none
  | c :: rest =>
    if c = 'm' then some rest
    else if isParamChar c then consumeParams rest
    else none

/-- Try to match the full escape pattern `ESC [ [0-9;]* m` at the head of
the list; return the remainder after the match. -/
def matchAt : List Char → Option (List Char)
  | c1 :: c2 :: rest =>
    if c1 = '\x1b' then (if c2 = '[' then consumeParams rest else none) else none
  | _ => none

/-- Left-to-right `re.sub` scan: at each position, remove a match of
`ESC [ [0-9;]* m` and continue after it, or keep the character and move
one position right.  Returns the stripped list and the number of removed
matches.  The fuel argument makes the recursion structural; fuel at least
the length of the list is always enough, because each step consumes at
least one character. -/
def ansiScan : Nat → List Char → List Char × Nat
  | 0, l => (l, 0)
  | _ + 1, [] => ([], 0)
  | fuel + 1, c :: rest =>
    match matchAt (c :: rest) with
    | some r => let p := ansiScan fuel r; (p.1, p.2 + 1)
    | none => let p := ansiScan fuel rest; (c :: p.1, p.2)

/-- The embedding of `re.sub(r'\033\[[0-9;]*m', '', text)` from
`MoonUI.box_row`. -/
def stripAnsi (l : List Char) : List Char := (ansiScan l.length l).1

/-- Number of escape-sequence matches removed by `stripAnsi`. -/
def ansiCount (l : List Char) : Nat := (ansiScan l.length l).2

/-! ## Basic properties of the digit representations -/

theorem digitChar_isDigit (n : Nat) : (digitChar n).isDigit = true := by
  unfold digitChar
  split <;> decide

theorem digitChar_isParam (n : Nat) : isParamChar (digitChar n) = true := by
  simp [isParamChar, digitChar_isDigit]

theorem natReprAux_digits (fuel n : Nat) :
    ∀ c ∈ natReprAux fuel n, c.isDigit = true := by
  induction fuel generalizing n with
  | zero => intro c hc; simp [natReprAux] at hc
  | succ fuel ih =>
    intro c hc
    unfold natReprAux at hc
    by_cases h : n < 10
    · simp [h] at hc
      simp [hc, digitChar_isDigit]
    · simp [h] at hc
      rcases hc with hc | hc
      · exact ih _ c hc
      · simp [hc, digitChar_isDigit]

theorem natRepr_digits (n : Nat) : ∀ c ∈ natRepr n, c.isDigit = true :=
  natReprAux_digits _ n

theorem intRepr_params_of_nonneg (i : Int) (h : 0 ≤ i) :
    ∀ c ∈ intRepr i, isParamChar c = true := by
  intro c hc
  unfold intRepr at hc
  rw [if_neg (by omega)] at hc
  have := natRepr_digits i.toNat c hc
  simp [isParamChar, this]

/-! ## Characterizing and manipulating the scanner -/

theorem isParamChar_ne_m {c : Char} (h : isParamChar c = true) : c ≠ 'm' := by
  intro he
  subst he
  simp [isParamChar] at h

theorem consumeParams_append (ps : List Char) (hps : ∀ c ∈ ps, isParamChar c = true)
    (rest : List Char) : consumeParams (ps ++ 'm' :: rest) = some rest := by
  induction ps with
  | nil => simp [consumeParams]
  | cons p ps ih =>
    have hp : isParamChar p = true := hps p (by simp)
    have hpm : p ≠ 'm' := isParamChar_ne_m hp
    simp only [List.cons_append, consumeParams, if_neg hpm, if_pos hp]
    exact ih fun c hc => hps c (by simp [hc])

theorem consumeParams_some_iff (l r : List Char) :
    consumeParams l = some r ↔
      ∃ ps, (∀ c ∈ ps, isParamChar c = true) ∧ l = ps ++ 'm' :: r := by
  constructor
  · induction l generalizing r with
    | nil => intro h; simp [consumeParams] at h
    | cons c rest ih =>
      intro h
      by_cases hm : c = 'm'
      · subst hm
        simp [consumeParams] at h
        exact ⟨[], by simp, by simp [h]⟩
      · by_cases hp : isParamChar c = true
        · simp only [consumeParams, if_neg hm, if_pos hp] at h
          obtain ⟨ps, hps, hrest⟩ := ih _ h
          exact ⟨c :: ps, by simpa [hp] using hps, by simp [hrest]⟩
        · simp [consumeParams, hm, hp] at h
  · rintro ⟨ps, hps, rfl⟩
    exact consumeParams_append ps hps r

theorem consumeParams_length {l r : List Char} (h : consumeParams l = some r) :
    r.length < l.length := by
  obtain ⟨ps, -, rfl⟩ := (consumeParams_some_iff l r).1 h
  simp
  omega

theorem matchAt_some_iff (l r : List Char) :
    matchAt l = some r ↔
      ∃ ps, (∀ c ∈ ps, isParamChar c = true) ∧ l = '\x1b' :: '[' :: (ps ++ 'm' :: r) := by
  constructor
  · intro h
    match l with
    | [] => simp [matchAt] at h
    | [c] => simp [matchAt] at h
    | c1 :: c2 :: rest =>
      by_cases h1 : c1 = '\x1b'
      · by_cases h2 : c2 = '['
        · subst h1; subst h2
          simp only [matchAt, if_pos rfl] at h
          obtain ⟨ps, hps, hrest⟩ := (consumeParams_some_iff rest r).1 h
          exact ⟨ps, hps, by simp [hrest]⟩
        · simp [matchAt, h1, h2] at h
      · simp [matchAt, h1] at h
  · rintro ⟨ps, hps, rfl⟩
    simp [matchAt, consumeParams_append ps hps r]

theorem matchAt_length {l r : List Char} (h : matchAt l = some r) :
    r.length < l.length := by
  obtain ⟨ps, -, rfl⟩ := (matchAt_some_iff l r).1 h
  simp
  omega

theorem ansiScan_fuel (f1 : Nat) :
    ∀ (f2 : Nat) (l : List Char), l.length ≤ f1 → l.length ≤ f2 →
      ansiScan f1 l = ansiScan f2 l := by
  induction f1 with
  | zero =>
    intro f2 l h1 _
    have : l = [] := List.length_eq_zero.1 (Nat.le_zero.1 h1)
    subst this
    cases f2 <;> simp [ansiScan]
  | succ f1 ih =>
    intro f2 l h1 h2
    match l with
    | [] => cases f2 <;> simp [ansiScan]
    | c :: rest =>
      match f2, h2 with
      | f2 + 1, h2 =>
        simp only [ansiScan]
        cases hm : matchAt (c :: rest) with
        | some r =>
          have hr := matchAt_length hm
          simp only [List.length_cons] at h1 h2 hr
          dsimp only
          rw [ih f2 r (by omega) (by omega)]
        | none =>
          simp only [List.length_cons] at h1 h2
          dsimp only
          rw [ih f2 rest (by omega) (by omega)]

theorem stripAnsi_nil : stripAnsi [] = [] := rfl

theorem ansiCount_nil : ansiCount [] = 0 := rfl

theorem stripAnsi_cons_match {c : Char} {rest r : List Char}
    (h : matchAt (c :: rest) = some r) : stripAnsi (c :: rest) = stripAnsi r := by
  have hr := matchAt_length h
  simp only [List.length_cons] at hr
  unfold stripAnsi
  simp only [List.length_cons, ansiScan, h]
  rw [ansiScan_fuel rest.length r.length r (by omega) (by omega)]

theorem ansiCount_cons_match {c : Char} {rest r : List Char}
    (h : matchAt (c :: rest) = some r) : ansiCount (c :: rest) = ansiCount r + 1 := by
  have hr := matchAt_length h
  simp only [List.length_cons] at hr
  unfold ansiCount
  simp only [List.length_cons, ansiScan, h]
  rw [ansiScan_fuel rest.length r.length r (by omega) (by omega)]

theorem stripAnsi_cons_nomatch {c : Char} {rest : List Char}
    (h : matchAt (c :: rest) = none) : stripAnsi (c :: rest) = c :: stripAnsi rest := by
  unfold stripAnsi
  simp only [List.length_cons, ansiScan, h]

theorem ansiCount_cons_nomatch {c : Char} {rest : List Char}
    (h : matchAt (c :: rest) = none) : ansiCount (c :: rest) = ansiCount rest := by
  unfold ansiCount
  simp only [List.length_cons, ansiScan, h]

theorem matchAt_none_of_head {c : Char} (rest : List Char) (h : c ≠ '\x1b') :
    matchAt (c :: rest) = none := by
  match rest with
  | [] => rfl
  | c2 :: rest2 => simp [matchAt, h]

theorem matchAt_none_of_tail {c : Char} {t : List Char}
    (h : t = [] ∨ ∃ t2, t = '\x1b' :: t2) : matchAt (c :: t) = none := by
  rcases h with rfl | ⟨t2, rfl⟩
  · rfl
  · by_cases hc : c = '\x1b' <;> simp [matchAt, hc]

theorem stripAnsi_of_no_esc : ∀ (l : List Char), '\x1b' ∉ l → stripAnsi l = l := by
  intro l hl
  induction l with
  | nil => rfl
  | cons c rest ih =>
    have hc : c ≠ '\x1b' := fun h => hl (h ▸ List.mem_cons_self c rest)
    rw [stripAnsi_cons_nomatch (matchAt_none_of_head rest hc),
      ih fun h => hl (List.mem_cons_of_mem c h)]

theorem stripAnsi_sublist : ∀ (l : List Char), (stripAnsi l).Sublist l := by
  have H : ∀ (k : Nat) (l : List Char), l.length ≤ k → (stripAnsi l).Sublist l := by
    intro k
    induction k with
    | zero =>
      intro l h
      have : l = [] := List.length_eq_zero.1 (Nat.le_zero.1 h)
      subst this
      simp [stripAnsi_nil]
    | succ k ih =>
      intro l h
      match l with
      | [] => simp [stripAnsi_nil]
      | c :: rest =>
        simp only [List.length_cons] at h
        cases hm : matchAt (c :: rest) with
        | some r =>
          rw [stripAnsi_cons_match hm]
          have hr := matchAt_length hm
          simp only [List.length_cons] at hr
          have h1 : (stripAnsi r).Sublist r := ih r (by omega)
          obtain ⟨ps, -, heq⟩ := (matchAt_some_iff _ r).1 hm
          have h2 : r.Sublist (c :: rest) := by
            rw [heq]
            exact ((((List.Sublist.refl r).cons 'm').trans
              (List.sublist_append_right ps ('m' :: r))).cons '[').cons '\x1b'
          exact h1.trans h2
        | none =>
          rw [stripAnsi_cons_nomatch hm]
          exact (ih rest (by omega)).cons₂ c
  exact fun l => H l.length l le_rfl

/-! ## Color interpolation

The source computes, for character `i` of `n` (with `t = 0.5` when
`n == 1` and `t = i / (n - 1)` otherwise),

    r = int(start[0] + (end[0] - start[0]) * t)

per channel, in IEEE-754 binary64 arithmetic (Python floats).  Two
embeddings of this computation are used:

* `interp` is the exact-arithmetic value: over the rationals,
  `start + (end - start) * (i/(n-1))` equals
  `(start*(n-1) + (end-start)*i) / (n-1)`, and `int(...)` truncates
  toward zero, so this is the `Int.tdiv` of the cleared-denominator form
  (`interp_eq_ratTrunc` connects it to the rational formula).  The
  gradient builder below uses it; every structural theorem about the
  builder depends only on this value being non-negative, which the
  float evaluation guarantees as well (rounding is monotone, both
  endpoints are representable, and the exact value lies between them).
* `interpF`, defined after it, evaluates the source expression operation
  by operation in binary64 (correct rounding to nearest, ties to even).

The two can differ: binary64 rounding can push the value just below an
integer the exact formula reaches (see the counterexample for claim C4,
channels `0 → 90` at `i = 7`, `n = 11`: the program emits 62, the exact
floor is 63). -/

/-- Interpolation parameter for character `i` of a string of length `n`. -/
def tParam (i n : Nat) : ℚ := if n = 1 then 1 / 2 else (i : ℚ) / ((n : ℚ) - 1)

/-- The exact value `start + (end - start) * t` of the interpolation. -/
def interpQ (s e : Int) (t : ℚ) : ℚ := (s : ℚ) + ((e : ℚ) - (s : ℚ)) * t

/-- Truncation toward zero of a rational, as Python's `int(...)` cast. -/
def ratTrunc (q : ℚ) : Int :=
  if 0 ≤ q.num then q.num / (q.den : Int) else -((-q.num) / (q.den : Int))

/-- Exact-arithmetic value of one color channel: character index `i`,
text length `n`, channel endpoints `s` and `e`.  This is the truncation
toward zero of `s + (e - s) * t` evaluated as a rational; the program's
binary64 evaluation is `interpF` below, which can differ from this by
one unit. -/
def interp (s e : Int) (i n : Nat) : Int :=
  if n = 1 then Int.tdiv (s + e) 2
  else Int.tdiv (s * ((n : Int) - 1) + (e - s) * (i : Int)) ((n : Int) - 1)

theorem ratTrunc_eq_floor {q : ℚ} (h : 0 ≤ q) : ratTrunc q = ⌊q⌋ := by
  rw [ratTrunc, if_pos (Rat.num_nonneg.2 h), Rat.floor_def]

theorem ratTrunc_eq_ceil {q : ℚ} (h : q ≤ 0) : ratTrunc q = ⌈q⌉ := by
  by_cases h0 : 0 ≤ q.num
  · have hq : q = 0 := le_antisymm h (Rat.num_nonneg.1 h0)
    subst hq
    simp [ratTrunc]
  · have : ⌊-q⌋ = -⌈q⌉ := Int.floor_neg
    have hfl : ⌈q⌉ = -⌊-q⌋ := by omega
    rw [ratTrunc, if_neg h0, hfl, Rat.floor_def, Rat.neg_num, Rat.neg_den]

theorem ratTrunc_intCast_div (a : Int) (d : Nat) (hd : 0 < d) :
    ratTrunc ((a : ℚ) / (d : ℚ)) = Int.tdiv a d := by
  have hdq : (0 : ℚ) < (d : ℚ) := by exact_mod_cast hd
  by_cases ha : 0 ≤ a
  · have hq : (0 : ℚ) ≤ (a : ℚ) / (d : ℚ) :=
      div_nonneg (by exact_mod_cast ha) hdq.le
    rw [ratTrunc_eq_floor hq, Rat.floor_intCast_div_natCast,
      Int.tdiv_eq_ediv ha (by exact_mod_cast Nat.zero_le d)]
  · have ha' : a ≤ 0 := by omega
    have hq : (a : ℚ) / (d : ℚ) ≤ 0 :=
      div_nonpos_of_nonpos_of_nonneg (by exact_mod_cast ha') hdq.le
    rw [ratTrunc_eq_ceil hq]
    have hneg : -((a : ℚ) / (d : ℚ)) = ((-a : Int) : ℚ) / (d : ℚ) := by
      push_cast
      ring
    have hfl : ⌈(a : ℚ) / (d : ℚ)⌉ = -⌊((-a : Int) : ℚ) / (d : ℚ)⌋ := by
      rw [← hneg]
      have : ⌊-((a : ℚ) / (d : ℚ))⌋ = -⌈(a : ℚ) / (d : ℚ)⌉ := Int.floor_neg
      omega
    have h2 : Int.tdiv (-a) ((d : Nat) : Int) = (-a) / ((d : Nat) : Int) :=
      Int.tdiv_eq_ediv (by omega) (by exact_mod_cast Nat.zero_le d)
    have h3 := Int.neg_tdiv a ((d : Nat) : Int)
    rw [hfl, Rat.floor_intCast_div_natCast]
    omega

theorem interp_eq_ratTrunc (s e : Int) {i n : Nat} (hin : i < n) :
    interp s e i n = ratTrunc (interpQ s e (tParam i n)) := by
  by_cases h1 : n = 1
  · subst h1
    have hq : interpQ s e (tParam i 1) = (((s + e : Int) : ℚ)) / ((2 : Nat) : ℚ) := by
      unfold interpQ tParam
      rw [if_pos rfl]
      push_cast
      ring
    rw [interp, if_pos rfl, hq, ratTrunc_intCast_div _ 2 (by omega)]
    norm_cast
  · have hn2 : 2 ≤ n := by omega
    set d : Nat := n - 1 with hd
    have hd0 : 0 < d := by omega
    have hcast : ((n : ℚ) - 1) = (d : ℚ) := by
      have : (n : ℚ) = ((d + 1 : Nat) : ℚ) := by norm_cast; omega
      rw [this]
      push_cast
      ring
    have hq : interpQ s e (tParam i n) =
        ((s * (d : Int) + (e - s) * (i : Int) : Int) : ℚ) / ((d : Nat) : ℚ) := by
      unfold interpQ tParam
      rw [if_neg h1, hcast]
      have hdq : ((d : Nat) : ℚ) ≠ 0 := by
        exact_mod_cast Nat.pos_iff_ne_zero.1 hd0
      field_simp
    have hcast2 : ((n : Int) - 1) = (d : Int) := by omega
    rw [interp, if_neg h1, hq, ratTrunc_intCast_div _ d hd0, hcast2]

theorem tParam_nonneg {i n : Nat} (hin : i < n) : 0 ≤ tParam i n := by
  unfold tParam
  split
  · norm_num
  · have hn2 : 2 ≤ n := by omega
    apply div_nonneg (by positivity)
    have : (2 : ℚ) ≤ (n : ℚ) := by exact_mod_cast hn2
    linarith

theorem tParam_le_one {i n : Nat} (hin : i < n) : tParam i n ≤ 1 := by
  unfold tParam
  split
  · norm_num
  · have hn2 : 2 ≤ n := by omega
    have hden : (0 : ℚ) < (n : ℚ) - 1 := by
      have : (2 : ℚ) ≤ (n : ℚ) := by exact_mod_cast hn2
      linarith
    rw [div_le_one hden]
    have : (i : ℚ) + 1 ≤ (n : ℚ) := by exact_mod_cast hin
    linarith

theorem interpQ_nonneg {s e : Int} (hs : 0 ≤ s) (he : 0 ≤ e) {t : ℚ}
    (ht0 : 0 ≤ t) (ht1 : t ≤ 1) : 0 ≤ interpQ s e t := by
  unfold interpQ
  have hs' : (0 : ℚ) ≤ (s : ℚ) := by exact_mod_cast hs
  have he' : (0 : ℚ) ≤ (e : ℚ) := by exact_mod_cast he
  nlinarith [mul_nonneg he' ht0, mul_nonneg hs' (sub_nonneg.2 ht1)]

theorem interp_eq_floor {s e : Int} (hs : 0 ≤ s) (he : 0 ≤ e) {i n : Nat}
    (hin : i < n) : interp s e i n = ⌊interpQ s e (tParam i n)⌋ := by
  rw [interp_eq_ratTrunc s e hin,
    ratTrunc_eq_floor (interpQ_nonneg hs he (tParam_nonneg hin) (tParam_le_one hin))]

theorem interp_nonneg {s e : Int} (hs : 0 ≤ s) (he : 0 ≤ e) {i n : Nat}
    (hin : i < n) : 0 ≤ interp s e i n := by
  rw [interp_eq_floor hs he hin]
  exact Int.floor_nonneg.2
    (interpQ_nonneg hs he (tParam_nonneg hin) (tParam_le_one hin))

/-! ## The channel computation in binary64

The model below evaluates the source expression the way CPython does:
`i / (n - 1)` is the correctly rounded binary64 quotient of the two
integers, `(e - s) * t` converts the integer to binary64 and multiplies
with one rounding, `s + ...` converts and adds with one rounding, and
`int(...)` truncates toward zero.  A binary64 value is carried as a
dyadic pair `(m, e)` of value `m * 2 ^ e`; every operation rounds its
exact result once, to 53 significant bits, to nearest with ties to the
even significand.  The exponent is unbounded, so the model ignores
overflow and subnormal rounding; neither can arise from the channel
magnitudes and interpolation parameters this program computes with (all
intermediate values are either 0 or lie between `2 ^ -1022` and
`2 ^ 1023` in magnitude for any representable input sizes). -/

/-- Number of binary digits of `n` (0 for 0); the first argument is fuel
making the recursion structural, and any fuel above the bit count is
enough. -/
def bitlenAux : Nat → Nat → Nat
  | 0, _ => 0
  | fuel + 1, n => if n = 0 then 0 else bitlenAux fuel (n / 2) + 1

/-- Number of binary digits of `n`. -/
def bitlen (n : Nat) : Nat := bitlenAux (n + 1) n

/-- Nearest integer to `a / b` for `b > 0`, ties going to the even
candidate — the integer-level rounding rule of IEEE-754
round-to-nearest-even. -/
def rndNE (a b : Nat) : Nat :=
  let q := a / b
  let r := a % b
  if 2 * r < b then q
  else if b < 2 * r then q + 1
  else if q % 2 = 0 then q else q + 1

/-- Round the non-negative rational `A / b` (`b > 0`) once to 53
significant bits, to nearest with ties to even; the result `(m, e)` has
value `m * 2 ^ e`.  The exponent guess from the bit lengths places the
scaled quotient in `(2 ^ 52, 2 ^ 54)`; when the rounded significand
falls outside `[2 ^ 52, 2 ^ 53]` the rounding is redone once at the
adjacent scale, directly from the exact inputs, so no double rounding
occurs. -/
def roundQpos (A b : Nat) : Nat × Int :=
  let e0 : Int := (bitlen A : Int) - (bitlen b : Int) - 53
  let num := A * 2 ^ (-e0).toNat
  let den := b * 2 ^ e0.toNat
  let m0 := rndNE num den
  if m0 < 2 ^ 52 then (rndNE (num * 2) den, e0 - 1)
  else if 2 ^ 53 < m0 then (rndNE num (den * 2), e0 + 1)
  else (m0, e0)

/-- Round the dyadic `m * 2 ^ e` to binary64 (rounding is symmetric
under negation); used for int-to-float conversion (`e = 0`) and to
round exact products and sums. -/
def roundF (m : Int) (e : Int) : Int × Int :=
  let p := roundQpos m.natAbs 1
  (if m < 0 then -(p.1 : Int) else (p.1 : Int), p.2 + e)

/-- CPython's true division of two non-negative integers: the correctly
rounded binary64 value of the exact quotient. -/
def divF (a b : Nat) : Int × Int :=
  let p := roundQpos a b
  ((p.1 : Int), p.2)

/-- Binary64 product: exact product, one rounding. -/
def fmul (x y : Int × Int) : Int × Int := roundF (x.1 * y.1) (x.2 + y.2)

/-- Binary64 sum: exact alignment and addition, one rounding. -/
def fadd (x y : Int × Int) : Int × Int :=
  if x.2 ≤ y.2 then roundF (x.1 + y.1 * 2 ^ (y.2 - x.2).toNat) x.2
  else roundF (x.1 * 2 ^ (x.2 - y.2).toNat + y.1) y.2

/-- Truncation toward zero of a dyadic value: Python's `int(...)` cast
applied to a float. -/
def truncF (x : Int × Int) : Int :=
  if 0 ≤ x.2 then x.1 * 2 ^ x.2.toNat else Int.tdiv x.1 (2 ^ (-x.2).toNat)

/-- The program's channel computation, operation by operation:
`t = 0.5` (exactly representable) when `n == 1`, else the correctly
rounded `i / (n - 1)`; then `int(s + (e - s) * t)` with one rounding per
float operation. -/
def interpF (s e : Int) (i n : Nat) : Int :=
  let t : Int × Int := if n = 1 then (1, -1) else divF i (n - 1)
  truncF (fadd (roundF s 0) (fmul (roundF (e - s) 0) t))

/-! ## The gradient text builder (`MoonUI.gradient_text`) -/

/-- An RGB color: three integer channels. -/
abbrev RGB := Int × Int × Int

/-- All three channels of a color are non-negative (the data model keeps
channels in `[0, 255]`; only the lower bound matters for the escape
grammar, since a negative channel would print a minus sign). -/
def ColorNN (c : RGB) : Prop := 0 ≤ c.1 ∧ 0 ≤ c.2.1 ∧ 0 ≤ c.2.2

instance (c : RGB) : Decidable (ColorNN c) :=
  inferInstanceAs (Decidable (0 ≤ c.1 ∧ 0 ≤ c.2.1 ∧ 0 ≤ c.2.2))

/-- The reset escape `"\033[0m"` appended after the last character. -/
def resetSeq : List Char := ['\x1b', '[', '0', 'm']

/-- Parameter characters of the color-set escape `ESC[38;2;r;g;bm`. -/
def colorParams (r g b : Int) : List Char :=
  '3' :: '8' :: ';' :: '2' :: ';' :: (intRepr r ++ ';' :: intRepr g ++ ';' :: intRepr b)

/-- The color-set escape `f"\033[38;2;{r};{g};{b}m"`. -/
def escColor (r g b : Int) : List Char :=
  '\x1b' :: '[' :: (colorParams r g b ++ ['m'])

/-- The escape emitted before character `i` of a text of length `n`. -/
def escFor (sc ec : RGB) (i n : Nat) : List Char :=
  escColor (interp sc.1 ec.1 i n) (interp sc.2.1 ec.2.1 i n) (interp sc.2.2 ec.2.2 i n)

/-- The loop of `gradient_text`: one color-set escape immediately before
each character, indices counting up from `i`. -/
def gradAux (sc ec : RGB) (n : Nat) : Nat → List Char → List Char
  | _, [] => []
  | i, c :: rest => escFor sc ec i n ++ c :: gradAux sc ec n (i + 1) rest

/-- The embedding of `MoonUI.gradient_text` for a gradient from `sc` to
`ec`: empty input short-circuits to the empty string, otherwise each
character is prefixed with its color escape and one reset is appended. -/
def gradientText (sc ec : RGB) (text : List Char) : List Char :=
  if text.length = 0 then [] else gradAux sc ec text.length 0 text ++ resetSeq

/-- Gradient start `(80, 130, 255)` fixed in `MoonUI.__init__`. -/
def color_start : RGB := (80, 130, 255)

/-- Gradient end `(255, 100, 180)` fixed in `MoonUI.__init__`. -/
def color_end : RGB := (255, 100, 180)

/-- Alternate gradient start `(100, 160, 255)`. -/
def alt_start : RGB := (100, 160, 255)

/-- Alternate gradient end `(255, 130, 200)`. -/
def alt_end : RGB := (255, 130, 200)

/-- The `MoonUI.gradient_text` method: colors chosen by `use_alt`. -/
def gradient_text (text : List Char) (use_alt : Bool) : List Char :=
  if use_alt then gradientText alt_start alt_end text
  else gradientText color_start color_end text

/-! ## The box renderer -/

/-- The embedding of `MoonUI.box_line`: `left + fill * (width - 2) + right`
run through the gradient (Python string repetition clamps a negative
count to zero, as does `Int.toNat`). -/
def box_line (left fill right : Char) (width : Int) : List Char :=
  gradientText color_start color_end
    (left :: List.replicate (width - 2).toNat fill ++ [right])

/-- The embedding of `MoonUI.box_top`. -/
def box_top (w : Int) : List Char := box_line '┌' '─' '┐' w

/-- The embedding of `MoonUI.box_mid`. -/
def box_mid (w : Int) : List Char := box_line '├' '─' '┤' w

/-- The embedding of `MoonUI.box_bot`. -/
def box_bot (w : Int) : List Char := box_line '└' '─' '┘' w

/-- The embedding of `MoonUI.box_row`: strip the text, compute padding
from the alignment (any string other than `"center"` takes the
left-alignment branch), clamp both pads at zero, assemble
`│ pad text pad │` and gradient the whole line. -/
def box_row (text : List Char) (w : Int) (align : String) : List Char :=
  let clean := stripAnsi text
  let inner := w - 2
  let pads : Int × Int :=
    if align = "center" then
      ((inner - clean.length).fdiv 2,
        inner - clean.length - (inner - clean.length).fdiv 2)
    else
      (1, inner - clean.length - 1)
  gradientText color_start color_end
    ('│' :: (List.replicate (max pads.1 0).toNat ' ' ++ clean
      ++ List.replicate (max pads.2 0).toNat ' ' ++ ['│']))

/-- The embedding of `MoonUI.box_empty` (`box_row("", w)` with the
default `align="center"`). -/
def box_empty (w : Int) : List Char := box_row [] w "center"

/-- The embedding of `MoonUI.get_term_width`: the terminal query is an
environment capability, passed as `some cols` when
`os.get_terminal_size()` succeeds and `none` when it raises; the
`except` branch returns 80. -/
def get_term_width (query : Option Int) : Int :=
  match query with
  | some cols => cols
  | none => 80

/-- The embedding of `MoonUI.centered_pad`: a string of
`max((tw - box_width) // 2, 0)` spaces (Python `//` is floor division,
`Int.fdiv`). -/
def centered_pad (query : Option Int) (box_width : Int) : List Char :=
  List.replicate (max ((get_term_width query - box_width).fdiv 2) 0).toNat ' '

/-- The integer the spec's contract ascribes to `centered_pad`:
`max(floor((get_width() - box_width) / 2), 0)`.  Stated from the spec's
words, to compare with the source's string-valued `centered_pad`. -/
def centered_pad_spec (query : Option Int) (box_width : Int) : Int :=
  max ((get_term_width query - box_width).fdiv 2) 0

/-! ## Stripping a gradient line recovers the plain text -/

theorem colorParams_params {r g b : Int} (hr : 0 ≤ r) (hg : 0 ≤ g)
    (hb : 0 ≤ b) : ∀ c ∈ colorParams r g b, isParamChar c = true := by
  intro c hc
  simp only [colorParams, List.mem_cons, List.mem_append] at hc
  rcases hc with rfl | rfl | rfl | rfl | rfl | (hc | rfl | hc) | rfl | hc
  · decide
  · decide
  · decide
  · decide
  · decide
  · exact intRepr_params_of_nonneg r hr c hc
  · decide
  · exact intRepr_params_of_nonneg g hg c hc
  · decide
  · exact intRepr_params_of_nonneg b hb c hc

theorem stripAnsi_escColor {r g b : Int} (hr : 0 ≤ r) (hg : 0 ≤ g)
    (hb : 0 ≤ b) (tail : List Char) :
    stripAnsi (escColor r g b ++ tail) = stripAnsi tail
      ∧ ansiCount (escColor r g b ++ tail) = ansiCount tail + 1 := by
  have hshape : escColor r g b ++ tail
      = '\x1b' :: ('[' :: (colorParams r g b ++ 'm' :: tail)) := by
    simp [escColor]
  have hm : matchAt ('\x1b' :: ('[' :: (colorParams r g b ++ 'm' :: tail)))
      = some tail :=
    (matchAt_some_iff _ tail).2
      ⟨colorParams r g b, colorParams_params hr hg hb, rfl⟩
  rw [hshape, stripAnsi_cons_match hm, ansiCount_cons_match hm]
  exact ⟨rfl, rfl⟩

theorem gradAux_append_shape (sc ec : RGB) (n i : Nat) (l suffix : List Char)
    (hsuf : suffix = [] ∨ ∃ s2, suffix = '\x1b' :: s2) :
    gradAux sc ec n i l ++ suffix = []
      ∨ ∃ t2, gradAux sc ec n i l ++ suffix = '\x1b' :: t2 := by
  match l with
  | [] =>
    rcases hsuf with rfl | ⟨s2, rfl⟩
    · left; rfl
    · right; exact ⟨s2, rfl⟩
  | c :: rest =>
    right
    simp only [gradAux, escFor, escColor]
    exact ⟨_, rfl⟩

theorem ansi_gradAux (sc ec : RGB) (hs : ColorNN sc) (he : ColorNN ec)
    (n : Nat) :
    ∀ (l : List Char) (i : Nat) (suffix : List Char), i + l.length ≤ n →
      (suffix = [] ∨ ∃ s2, suffix = '\x1b' :: s2) →
      stripAnsi (gradAux sc ec n i l ++ suffix) = l ++ stripAnsi suffix
        ∧ ansiCount (gradAux sc ec n i l ++ suffix)
            = l.length + ansiCount suffix := by
  intro l
  induction l with
  | nil =>
    intro i suffix _ _
    simp [gradAux]
  | cons c rest ih =>
    intro i suffix hlen hsuf
    simp only [List.length_cons] at hlen
    have hin : i < n := by omega
    obtain ⟨hs1, hs2, hs3⟩ := hs
    obtain ⟨he1, he2, he3⟩ := he
    have hchain : gradAux sc ec n i (c :: rest) ++ suffix
        = escFor sc ec i n ++ (c :: (gradAux sc ec n (i + 1) rest ++ suffix)) := by
      simp [gradAux]
    have hesc := stripAnsi_escColor (interp_nonneg hs1 he1 hin)
      (interp_nonneg hs2 he2 hin) (interp_nonneg hs3 he3 hin)
      (c :: (gradAux sc ec n (i + 1) rest ++ suffix))
    have hnomatch : matchAt (c :: (gradAux sc ec n (i + 1) rest ++ suffix))
        = none :=
      matchAt_none_of_tail (gradAux_append_shape sc ec n (i + 1) rest suffix hsuf)
    obtain ⟨ihs, ihc⟩ := ih (i + 1) suffix (by omega) hsuf
    rw [hchain]
    constructor
    · simp only [escFor]
      rw [hesc.1, stripAnsi_cons_nomatch hnomatch, ihs]
      simp
    · simp only [escFor]
      rw [hesc.2, ansiCount_cons_nomatch hnomatch, ihc]
      simp
      omega

theorem stripAnsi_gradientText (sc ec : RGB) (hs : ColorNN sc)
    (he : ColorNN ec) (l : List Char) :
    stripAnsi (gradientText sc ec l) = l := by
  by_cases hl : l.length = 0
  · have : l = [] := List.length_eq_zero.1 hl
    subst this
    rfl
  · rw [gradientText, if_neg hl]
    have := (ansi_gradAux sc ec hs he l.length l 0 resetSeq (by omega)
      (Or.inr ⟨['[', '0', 'm'], rfl⟩)).1
    rw [this]
    simp
    decide

theorem ansiCount_gradientText (sc ec : RGB) (hs : ColorNN sc)
    (he : ColorNN ec) (l : List Char) (hl : l ≠ []) :
    ansiCount (gradientText sc ec l) = l.length + 1 := by
  have hlen : l.length ≠ 0 := fun h => hl (List.length_eq_zero.1 h)
  rw [gradientText, if_neg hlen]
  have := (ansi_gradAux sc ec hs he l.length l 0 resetSeq (by omega)
    (Or.inr ⟨['[', '0', 'm'], rfl⟩)).2
  rw [this]
  have : ansiCount resetSeq = 1 := by decide
  omega

theorem ansiCount_gradAux_body (sc ec : RGB) (hs : ColorNN sc)
    (he : ColorNN ec) (l : List Char) :
    ansiCount (gradAux sc ec l.length 0 l) = l.length := by
  have := (ansi_gradAux sc ec hs he l.length l 0 [] (by omega) (Or.inl rfl)).2
  simpa using this

/-! ## Stripped shapes and visible widths of box lines -/

theorem colorNN_start : ColorNN color_start := by decide

theorem colorNN_end : ColorNN color_end := by decide

theorem stripAnsi_box_line (left fill right : Char) (w : Int) :
    stripAnsi (box_line left fill right w)
      = left :: List.replicate (w - 2).toNat fill ++ [right] :=
  stripAnsi_gradientText color_start color_end colorNN_start colorNN_end _

theorem box_line_length (left fill right : Char) (w : Int) (h : 2 ≤ w) :
    ((stripAnsi (box_line left fill right w)).length : Int) = w := by
  rw [stripAnsi_box_line]
  simp only [List.length_cons, List.length_append, List.length_replicate,
    List.length_singleton, List.length_nil]
  omega

theorem stripAnsi_box_row_center (text : List Char) (w : Int) :
    stripAnsi (box_row text w "center")
      = '│' :: (List.replicate
            (max ((w - 2 - (stripAnsi text).length).fdiv 2) 0).toNat ' '
          ++ stripAnsi text
          ++ List.replicate (max (w - 2 - (stripAnsi text).length
              - (w - 2 - (stripAnsi text).length).fdiv 2) 0).toNat ' '
          ++ ['│']) := by
  rw [show box_row text w "center"
      = gradientText color_start color_end
          ('│' :: (List.replicate
                (max ((w - 2 - (stripAnsi text).length).fdiv 2) 0).toNat ' '
              ++ stripAnsi text
              ++ List.replicate (max (w - 2 - (stripAnsi text).length
                  - (w - 2 - (stripAnsi text).length).fdiv 2) 0).toNat ' '
              ++ ['│'])) from rfl]
  exact stripAnsi_gradientText color_start color_end colorNN_start colorNN_end _

theorem box_row_ne_center (text : List Char) (w : Int) (align : String)
    (h : align ≠ "center") : box_row text w align = box_row text w "left" := by
  simp only [box_row, if_neg h, if_neg (by decide : ¬("left" = "center"))]

theorem stripAnsi_box_row_left (text : List Char) (w : Int) (align : String)
    (h : align ≠ "center") :
    stripAnsi (box_row text w align)
      = '│' :: (List.replicate (max (1 : Int) 0).toNat ' '
          ++ stripAnsi text
          ++ List.replicate (max (w - 2 - (stripAnsi text).length - 1) 0).toNat ' '
          ++ ['│']) := by
  rw [box_row_ne_center text w align h]
  rw [show box_row text w "left"
      = gradientText color_start color_end
          ('│' :: (List.replicate (max (1 : Int) 0).toNat ' '
              ++ stripAnsi text
              ++ List.replicate
                  (max (w - 2 - (stripAnsi text).length - 1) 0).toNat ' '
              ++ ['│'])) from rfl]
  exact stripAnsi_gradientText color_start color_end colorNN_start colorNN_end _

theorem box_row_center_length (text : List Char) (w : Int)
    (h : ((stripAnsi text).length : Int) ≤ w - 2) :
    ((stripAnsi (box_row text w "center")).length : Int) = w := by
  rw [stripAnsi_box_row_center]
  have hD0 : 0 ≤ w - 2 - (stripAnsi text).length := by omega
  have h1 : 0 ≤ (w - 2 - (stripAnsi text).length).fdiv 2 :=
    Int.fdiv_nonneg hD0 (by norm_num)
  have h2 : (w - 2 - (stripAnsi text).length).fdiv 2
      ≤ w - 2 - (stripAnsi text).length := by
    rw [Int.fdiv_eq_ediv _ (by norm_num)]
    exact Int.ediv_le_self 2 hD0
  rw [max_eq_left h1, max_eq_left (by omega :
    (0 : Int) ≤ w - 2 - (stripAnsi text).length
      - (w - 2 - (stripAnsi text).length).fdiv 2)]
  simp only [List.length_cons, List.length_append, List.length_replicate,
    List.length_singleton, List.length_nil]
  omega

theorem box_row_left_length (text : List Char) (w : Int) (align : String)
    (ha : align ≠ "center") (h : ((stripAnsi text).length : Int) ≤ w - 3) :
    ((stripAnsi (box_row text w align)).length : Int) = w := by
  rw [stripAnsi_box_row_left text w align ha]
  rw [max_eq_left (by omega :
    (0 : Int) ≤ w - 2 - (stripAnsi text).length - 1)]
  simp only [List.length_cons, List.length_append, List.length_replicate,
    List.length_singleton, List.length_nil]
  omega

theorem box_empty_length (w : Int) (h : 2 ≤ w) :
    ((stripAnsi (box_empty w)).length : Int) = w := by
  rw [box_empty]
  exact box_row_center_length [] w (by simp [stripAnsi_nil]; omega)

end Moon

open Moon

/-- C1: for every non-empty text `T` of length `n` and valid gradient
colors, `gradient_text` emits exactly `n + 1` escape sequences — the `n`
color-set escapes of the loop body followed by the single reset at the
end — stripping all escapes recovers `T` unchanged, and the empty string
maps to the empty string with no reset emitted. -/
theorem C1_gradient_text_structure (sc ec : RGB) (T : List Char)
    (hs : ColorNN sc) (he : ColorNN ec) :
    gradientText sc ec [] = []
    ∧ (T ≠ [] →
        ansiCount (gradientText sc ec T) = T.length + 1
        ∧ stripAnsi (gradientText sc ec T) = T
        ∧ gradientText sc ec T = gradAux sc ec T.length 0 T ++ resetSeq
        ∧ ansiCount (gradAux sc ec T.length 0 T) = T.length) := by
  refine ⟨rfl, fun hT => ⟨?_, ?_, ?_, ?_⟩⟩
  · exact ansiCount_gradientText sc ec hs he T hT
  · exact stripAnsi_gradientText sc ec hs he T
  · rw [gradientText, if_neg (fun h => hT (List.length_eq_zero.1 h))]
  · exact ansiCount_gradAux_body sc ec hs he T

set_option maxRecDepth 100000 in
theorem C1_gradient_text_structure_witness :
    ansiCount (gradientText (80, 130, 255) (255, 100, 180) "AB".toList) = 3
    ∧ stripAnsi (gradientText (80, 130, 255) (255, 100, 180) "AB".toList)
        = "AB".toList := by
  have h := (C1_gradient_text_structure (80, 130, 255) (255, 100, 180)
    "AB".toList (by decide) (by decide)).2 (by decide)
  refine ⟨?_, h.2.1⟩
  rw [h.1]
  decide

set_option maxRecDepth 400000 in
/-- C2, counterexample: the claim fails for left alignment.  The text
`"12345678"` has stripped length `8 ≤ 10 - 2`, yet the left-aligned row
of width 10 has 11 visible characters, because the left branch always
inserts `pad_left = 1` and only clamps `pad_right` at zero. -/
theorem C2_visible_width_counterexample :
    ((stripAnsi "12345678".toList).length : Int) ≤ 10 - 2
    ∧ (stripAnsi (box_row "12345678".toList 10 "left")).length = 11
    ∧ (stripAnsi (box_row "12345678".toList 10 "left")).length ≠ 10 := by
  refine ⟨by decide, by decide, by decide⟩

/-- C2, amended: every border line, empty row and center-aligned row has
exactly `w` visible characters once stripped, provided the stripped
content fits in the inner width `w - 2`; a left-aligned row needs the
stricter bound `w - 3`, because `pad_left = 1` is always inserted. -/
theorem C2_visible_width_amended (w : Int) (text : List Char) :
    (2 ≤ w →
      ((stripAnsi (box_top w)).length : Int) = w
      ∧ ((stripAnsi (box_mid w)).length : Int) = w
      ∧ ((stripAnsi (box_bot w)).length : Int) = w
      ∧ ((stripAnsi (box_empty w)).length : Int) = w)
    ∧ (((stripAnsi text).length : Int) ≤ w - 2 →
        ((stripAnsi (box_row text w "center")).length : Int) = w)
    ∧ (((stripAnsi text).length : Int) ≤ w - 3 →
        ((stripAnsi (box_row text w "left")).length : Int) = w) := by
  refine ⟨fun h => ⟨?_, ?_, ?_, ?_⟩, fun h => ?_, fun h => ?_⟩
  · exact box_line_length '┌' '─' '┐' w h
  · exact box_line_length '├' '─' '┤' w h
  · exact box_line_length '└' '─' '┘' w h
  · exact box_empty_length w h
  · exact box_row_center_length text w h
  · exact box_row_left_length text w "left" (by decide) h

set_option maxRecDepth 400000 in
theorem C2_visible_width_amended_witness :
    ((stripAnsi (box_top 10)).length : Int) = 10
    ∧ ((stripAnsi (box_row "hi".toList 10 "center")).length : Int) = 10
    ∧ ((stripAnsi (box_row "hi".toList 10 "left")).length : Int) = 10 := by
  have h := C2_visible_width_amended 10 "hi".toList
  exact ⟨(h.1 (by decide)).1, h.2.1 (by decide), h.2.2 (by decide)⟩

/-- C3, counterexample: the strip is not idempotent on all strings.
`re.sub` does not rescan after a removal, so on
`ESC [ 0 ESC [ 0 m m` the inner escape is removed and its trailing `m`
joins the leftover prefix `ESC [ 0` to form a new complete escape: one
strip leaves `ESC [ 0 m`, a second strip erases it. -/
theorem C3_strip_idempotent_counterexample :
    stripAnsi "\x1b[0\x1b[0mm".toList = "\x1b[0m".toList
    ∧ stripAnsi (stripAnsi "\x1b[0\x1b[0mm".toList)
        ≠ stripAnsi "\x1b[0\x1b[0mm".toList := by
  refine ⟨by decide, by decide⟩

/-- C3, amended: the strip is idempotent on every string whose stripped
form contains no ESC character (in particular on any string without
dangling escape fragments); on such `X`, `strip(strip(X)) = strip(X)`. -/
theorem C3_strip_idempotent_amended (X : List Char)
    (h : '\x1b' ∉ stripAnsi X) :
    stripAnsi (stripAnsi X) = stripAnsi X :=
  stripAnsi_of_no_esc _ h

theorem C3_strip_idempotent_amended_witness :
    '\x1b' ∉ stripAnsi "\x1b[0ma".toList
    ∧ stripAnsi (stripAnsi "\x1b[0ma".toList) = stripAnsi "\x1b[0ma".toList :=
  ⟨by decide, C3_strip_idempotent_amended "\x1b[0ma".toList (by decide)⟩

set_option maxRecDepth 100000 in
/-- C4, counterexample: the channel computation runs in IEEE-754
doubles, not exact arithmetic, and within the claim's scope the two
disagree: for channels `0 → 90` at position 7 of length 11 the program
rounds `t = 7/10` to a binary64 just below `0.7`, so
`int(0 + 90 * t)` emits 62, while the floor of the exact formula is
63. -/
theorem C4_channel_interpolation_counterexample :
    interpF 0 90 7 11 = 62
    ∧ ⌊interpQ 0 90 (tParam 7 11)⌋ = 63
    ∧ interpF 0 90 7 11 ≠ ⌊interpQ 0 90 (tParam 7 11)⌋ := by
  have h : interp 0 90 7 11 = 63 := by decide
  have hf : ⌊interpQ 0 90 (tParam 7 11)⌋ = 63 :=
    (interp_eq_floor (by decide) (by decide) (by decide)).symm.trans h
  refine ⟨by decide, hf, ?_⟩
  rw [hf]
  decide

set_option maxRecDepth 100000 in
/-- C4, amended: the interpolation parameter is `t = 0.5` for a
singleton string and `t = i / (n - 1)` otherwise; each emitted channel
is the truncation toward zero (Python `int(...)` cast, not rounding) of
the program's binary64 evaluation of `start + (end - start) * t`, which
agrees with the floor of the exact formula only when the double
evaluation is exact (in exact arithmetic the value is the truncation,
equivalently the floor for non-negative endpoints); on the single
character `"X"` with start `(10, 20, 30)` and end `(90, 80, 70)` the
evaluation is exact (`t = 0.5`), the binary64 channels coincide with the
exact ones, and the emitted color is `(50, 50, 50)`. -/
theorem C4_channel_interpolation_amended (s e : Int) (i n : Nat)
    (hs : 0 ≤ s) (he : 0 ≤ e) (hin : i < n) :
    (n = 1 → tParam i n = 1 / 2)
    ∧ (n ≠ 1 → tParam i n = (i : ℚ) / ((n : ℚ) - 1))
    ∧ interp s e i n = ratTrunc (interpQ s e (tParam i n))
    ∧ interp s e i n = ⌊interpQ s e (tParam i n)⌋
    ∧ interpF 10 90 0 1 = 50 ∧ interpF 20 80 0 1 = 50 ∧ interpF 30 70 0 1 = 50
    ∧ interpF 10 90 0 1 = interp 10 90 0 1
    ∧ interpF 20 80 0 1 = interp 20 80 0 1
    ∧ interpF 30 70 0 1 = interp 30 70 0 1
    ∧ gradientText (10, 20, 30) (90, 80, 70) ['X']
        = escColor 50 50 50 ++ ('X' :: resetSeq) := by
  refine ⟨fun h => by simp [tParam, h], fun h => by simp [tParam, h],
    interp_eq_ratTrunc s e hin, interp_eq_floor hs he hin, by decide,
    by decide, by decide, by decide, by decide, by decide, by decide⟩

theorem C4_channel_interpolation_amended_witness :
    interp 10 90 0 1 = ⌊interpQ 10 90 (tParam 0 1)⌋
    ∧ tParam 0 1 = 1 / 2 := by
  have h := C4_channel_interpolation_amended 10 90 0 1 (by decide) (by decide)
    (by decide)
  exact ⟨h.2.2.2.1, h.1 rfl⟩

set_option maxRecDepth 400000 in
/-- C5: a center-aligned row is `│`, `pad_left` spaces, the stripped
text, `pad_right` spaces, `│`, with `pad_left = (inner - len) // 2`
(floor division) and `pad_right = inner - len - pad_left`, both clamped
at zero; concretely `box_row("hi", 10, center)` strips to
`"│   hi   │"` with `pad_left = pad_right = 3` and 10 visible
characters. -/
theorem C5_box_row_center_padding (text : List Char) (w : Int) :
    stripAnsi (box_row text w "center")
      = '│' :: (List.replicate
            (max ((w - 2 - (stripAnsi text).length).fdiv 2) 0).toNat ' '
          ++ stripAnsi text
          ++ List.replicate (max (w - 2 - (stripAnsi text).length
              - (w - 2 - (stripAnsi text).length).fdiv 2) 0).toNat ' '
          ++ ['│'])
    ∧ ((10 : Int) - 2 - 2).fdiv 2 = 3
    ∧ (10 : Int) - 2 - 2 - ((10 : Int) - 2 - 2).fdiv 2 = 3
    ∧ stripAnsi (box_row "hi".toList 10 "center") = "│   hi   │".toList
    ∧ (stripAnsi (box_row "hi".toList 10 "center")).length = 10 :=
  ⟨stripAnsi_box_row_center text w, by decide, by decide, by decide, by decide⟩

/-- C6, counterexample: `centered_pad` does not return an integer — it
returns the padding string itself.  With terminal width 80 and box width
60 it returns ten spaces, not (any rendering of) the number 10. -/
theorem C6_centered_pad_counterexample :
    centered_pad (some 80) 60 = List.replicate 10 ' '
    ∧ centered_pad (some 80) 60 ≠ intRepr 10 := by
  refine ⟨by decide, by decide⟩

/-- C6, amended: `centered_pad(box_width)` returns a string of spaces
whose length is `max((get_width() - box_width) // 2, 0)` (flooring to 0
when the terminal is narrower than the box); with terminal width 80,
`centered_pad(60)` is the 10-space string. -/
theorem C6_centered_pad_amended (q : Option Int) (bw : Int) :
    ((centered_pad q bw).length : Int) = centered_pad_spec q bw
    ∧ (∀ c ∈ centered_pad q bw, c = ' ')
    ∧ centered_pad (some 80) 60 = List.replicate 10 ' ' := by
  refine ⟨?_, ?_, by decide⟩
  · rw [centered_pad, centered_pad_spec, List.length_replicate,
      Int.toNat_of_nonneg (le_max_right _ _)]
  · intro c hc
    exact List.eq_of_mem_replicate hc

theorem C6_centered_pad_amended_witness :
    ' ' ∈ centered_pad (some 80) 60 ∧ ' ' = ' ' :=
  ⟨by decide, (C6_centered_pad_amended (some 80) 60).2.1 ' ' (by decide)⟩

/-- C7: the strip recognizes exactly the grammar `ESC [ (digit | ;)* m`
(the match characterization below), removes every such occurrence,
keeps every character outside a match unchanged and in order (the
no-match step and the sublist property), and leaves malformed fragments
— an ESC that does not begin a complete match — in place. -/
theorem C7_strip_grammar (X ps rest r : List Char) (c : Char) :
    (matchAt X = some r ↔
      ∃ ps2, (∀ c2 ∈ ps2, isParamChar c2 = true)
        ∧ X = '\x1b' :: '[' :: (ps2 ++ 'm' :: r))
    ∧ ((∀ c2 ∈ ps, isParamChar c2 = true) →
        stripAnsi ('\x1b' :: '[' :: (ps ++ 'm' :: rest)) = stripAnsi rest)
    ∧ (c ≠ '\x1b' → stripAnsi (c :: rest) = c :: stripAnsi rest)
    ∧ (matchAt (c :: rest) = none → stripAnsi (c :: rest) = c :: stripAnsi rest)
    ∧ (stripAnsi X).Sublist X := by
  refine ⟨matchAt_some_iff X r, fun hps => ?_, fun hc => ?_, fun hm => ?_,
    stripAnsi_sublist X⟩
  · exact stripAnsi_cons_match ((matchAt_some_iff _ _).2 ⟨ps, hps, rfl⟩)
  · exact stripAnsi_cons_nomatch (matchAt_none_of_head rest hc)
  · exact stripAnsi_cons_nomatch hm

theorem C7_strip_grammar_witness :
    stripAnsi ('\x1b' :: '[' :: (['0'] ++ 'm' :: "b".toList)) = stripAnsi "b".toList
    ∧ stripAnsi ('a' :: "b".toList) = 'a' :: stripAnsi "b".toList := by
  have h := C7_strip_grammar "x".toList ['0'] "b".toList [] 'a'
  exact ⟨h.2.1 (by decide), h.2.2.1 (by decide)⟩

/-- C8: each border builder produces the gradient of
`corner + fill * (w - 2) + corner` with its own glyph set, the stripped
line is exactly that raw text, and a width below 2 clamps the fill count
to zero so only the two corner glyphs remain. -/
theorem C8_box_lines (w : Int) :
    box_top w = gradientText color_start color_end
        ('┌' :: List.replicate (w - 2).toNat '─' ++ ['┐'])
    ∧ box_mid w = gradientText color_start color_end
        ('├' :: List.replicate (w - 2).toNat '─' ++ ['┤'])
    ∧ box_bot w = gradientText color_start color_end
        ('└' :: List.replicate (w - 2).toNat '─' ++ ['┘'])
    ∧ stripAnsi (box_top w) = '┌' :: List.replicate (w - 2).toNat '─' ++ ['┐']
    ∧ stripAnsi (box_mid w) = '├' :: List.replicate (w - 2).toNat '─' ++ ['┤']
    ∧ stripAnsi (box_bot w) = '└' :: List.replicate (w - 2).toNat '─' ++ ['┘']
    ∧ (w - 2 < 0 → (w - 2).toNat = 0
        ∧ stripAnsi (box_top w) = ['┌', '┐']
        ∧ stripAnsi (box_mid w) = ['├', '┤']
        ∧ stripAnsi (box_bot w) = ['└', '┘']) := by
  refine ⟨rfl, rfl, rfl, stripAnsi_box_line '┌' '─' '┐' w,
    stripAnsi_box_line '├' '─' '┤' w, stripAnsi_box_line '└' '─' '┘' w,
    fun h => ?_⟩
  have ht : (w - 2).toNat = 0 := by omega
  refine ⟨ht, ?_, ?_, ?_⟩ <;>
    simp [box_top, box_mid, box_bot, stripAnsi_box_line, ht, List.replicate]

theorem C8_box_lines_witness :
    (1 - 2 : Int).toNat = 0 ∧ stripAnsi (box_top 1) = ['┌', '┐'] := by
  have h := (C8_box_lines 1).2.2.2.2.2.2 (by decide)
  exact ⟨h.1, h.2.1⟩

/-- C9: the terminal-width helper returns the queried column count when
the query succeeds and the fixed fallback 80 when it raises; being a
total function of the query outcome, it never propagates a failure. -/
theorem C9_get_width_fallback (cols : Int) :
    get_term_width (some cols) = cols ∧ get_term_width none = 80 :=
  ⟨rfl, rfl⟩

/-- C10: any alignment string other than exactly `"center"` takes the
left branch: the row equals the `"left"` row, with `pad_left = 1` and
`pad_right = inner - len - 1` clamped at zero, and no alignment value is
rejected. -/
theorem C10_box_row_align_fallthrough (text : List Char) (w : Int)
    (align : String) (h : align ≠ "center") :
    box_row text w align = box_row text w "left"
    ∧ stripAnsi (box_row text w align)
        = '│' :: (List.replicate (max (1 : Int) 0).toNat ' '
            ++ stripAnsi text
            ++ List.replicate
                (max (w - 2 - (stripAnsi text).length - 1) 0).toNat ' '
            ++ ['│']) :=
  ⟨box_row_ne_center text w align h, stripAnsi_box_row_left text w align h⟩

theorem C10_box_row_align_fallthrough_witness :
    box_row "hi".toList 10 "Left" = box_row "hi".toList 10 "left" :=
  (C10_box_row_align_fallthrough "hi".toList 10 "Left" (by decide)).1
